import Mathlib

/-!
Formal model of the cog lifecycle manager in `main.py` of the tuffybot
repository: the directory scanner, the mtime registry `_cog_mtimes`, one
reconciliation cycle of the polling watcher `TuffyBot._cog_watcher`, and
the startup loader `TuffyBot.load_cogs`.

File-modification times are modelled as rationals. The fallible external
calls (`load_extension`, `reload_extension`, `unload_extension`,
`tree.sync`) are modelled by an oracle fixing each call's outcome, and
every call a cycle makes is recorded in an event trace, in program order.
-/

namespace Tuffy

/-- Python `dict[str, float]` (`self._cog_mtimes`, `current`), as an
insertion-ordered association list. -/
abbrev Dict := List (String × ℚ)

/-- `d.get(k)` / `k in d`. -/
def lookupD : Dict → String → Option ℚ
  | [], _ => none
  | (k, v) :: rest, m => if k = m then some v else lookupD rest m

/-- `d[k] = v`: replace in place if the key is present, else append. -/
def insertD : Dict → String → ℚ → Dict
  | [], m, t => [(m, t)]
  | (k, v) :: rest, m, t =>
      if k = m then (m, t) :: rest else (k, v) :: insertD rest m t

/-- `d.setdefault(k, v)`: insert only if the key is absent. -/
def setdefaultD (d : Dict) (m : String) (t : ℚ) : Dict :=
  match lookupD d m with
  | some _ => d
  | none => d ++ [(m, t)]

/-- `d.pop(k, None)`: drop the entry with key `k`, if any. -/
def eraseD : Dict → String → Dict
  | [], _ => []
  | (k, v) :: rest, m => if k = m then rest else (k, v) :: eraseD rest m

/-- The discord.py `bot.extensions` table, by module name, modelled as the
list of currently loaded extension names. -/
def insertExt (es : List String) (m : String) : List String :=
  if m ∈ es then es else es ++ [m]

/-- Removal from the loaded-extensions table. -/
def removeExt (es : List String) (m : String) : List String :=
  es.filter (fun x => decide (x ≠ m))

/-- The mutable bot state the watcher reads and writes: `self._cog_mtimes`
and (through the loader calls) `self.extensions`. -/
structure BotState where
  cogMtimes : Dict
  extensions : List String
deriving DecidableEq

/-- One observable call made by the watcher: a loader call on a module
(with its outcome) or a `tree.sync` call (with its outcome). -/
inductive Ev where
  | loadCall (m : String) (ok : Bool)
  | reloadCall (m : String) (ok : Bool)
  | unloadCall (m : String) (ok : Bool)
  | syncCall (ok : Bool)
deriving DecidableEq

/-- Outcomes of the fallible external calls: whether
`load_extension m` / `reload_extension m` / `unload_extension m` /
`tree.sync` succeed. Every call site in the source catches the failure,
so an outcome only decides the recorded event and the extension table. -/
structure Oracle where
  loadOk : String → Bool
  reloadOk : String → Bool
  unloadOk : String → Bool
  syncOk : Bool

/-- A scan result: the `current` map built each cycle, module → mtime. -/
abbrev Scan := List (String × ℚ)

/-- One iteration of the `Detect added files` loop (main.py lines
135-148): if the module is not yet in `self._cog_mtimes`, try to load it,
record its mtime regardless of the outcome, then call `tree.sync`. -/
def addedStep (o : Oracle) (acc : BotState × List Ev) (p : String × ℚ) :
    BotState × List Ev :=
  match lookupD acc.1.cogMtimes p.1 with
  | some _ => acc
  | none =>
      let ok := o.loadOk p.1
      let exts := if ok then insertExt acc.1.extensions p.1 else acc.1.extensions
      (⟨insertD acc.1.cogMtimes p.1 p.2, exts⟩,
        acc.2 ++ [Ev.loadCall p.1 ok, Ev.syncCall o.syncOk])

/-- The `Detect added files` loop over the scan. -/
def addedPhase (o : Oracle) (scan : Scan) (st : BotState) :
    BotState × List Ev :=
  scan.foldl (addedStep o) (st, [])

/-- One iteration of the `Detect modified files` loop (main.py lines
151-170): if the recorded mtime exists and the scanned mtime is strictly
greater, reload when loaded else load, record the new mtime regardless of
the outcome, then call `tree.sync`. -/
def modifiedStep (o : Oracle) (acc : BotState × List Ev) (p : String × ℚ) :
    BotState × List Ev :=
  match lookupD acc.1.cogMtimes p.1 with
  | none => acc
  | some prev =>
      if prev < p.2 then
        if p.1 ∈ acc.1.extensions then
          (⟨insertD acc.1.cogMtimes p.1 p.2, acc.1.extensions⟩,
            acc.2 ++ [Ev.reloadCall p.1 (o.reloadOk p.1), Ev.syncCall o.syncOk])
        else
          let ok := o.loadOk p.1
          let exts :=
            if ok then insertExt acc.1.extensions p.1 else acc.1.extensions
          (⟨insertD acc.1.cogMtimes p.1 p.2, exts⟩,
            acc.2 ++ [Ev.loadCall p.1 ok, Ev.syncCall o.syncOk])
      else acc

/-- The `Detect modified files` loop over the scan. -/
def modifiedPhase (o : Oracle) (scan : Scan) (st : BotState) :
    BotState × List Ev :=
  scan.foldl (modifiedStep o) (st, [])

/-- The list `removed` computed at main.py line 173: keys of
`self._cog_mtimes` absent from `current`. -/
def removedIds (st : BotState) (scan : Scan) : List String :=
  (st.cogMtimes.map Prod.fst).filter (fun m => (lookupD scan m).isNone)

/-- One iteration of the `Detect removed files` loop (main.py lines
174-186): unload only if currently loaded, pop the record regardless of
the unload outcome, then call `tree.sync`. -/
def removedStep (o : Oracle) (acc : BotState × List Ev) (m : String) :
    BotState × List Ev :=
  if m ∈ acc.1.extensions then
    let ok := o.unloadOk m
    let exts := if ok then removeExt acc.1.extensions m else acc.1.extensions
    (⟨eraseD acc.1.cogMtimes m, exts⟩,
      acc.2 ++ [Ev.unloadCall m ok, Ev.syncCall o.syncOk])
  else
    (⟨eraseD acc.1.cogMtimes m, acc.1.extensions⟩,
      acc.2 ++ [Ev.syncCall o.syncOk])

/-- The `Detect removed files` loop: the list of removed modules is fixed
before the loop runs, as in the source. -/
def removedPhase (o : Oracle) (scan : Scan) (st : BotState) :
    BotState × List Ev :=
  (removedIds st scan).foldl (removedStep o) (st, [])

/-- One full reconciliation cycle of `TuffyBot._cog_watcher` (main.py
lines 121-188) on an already-built scan: the added loop, then the
modified loop, then the removed loop, with the traces concatenated in
program order. -/
def cogWatcherCycle (o : Oracle) (scan : Scan) (st : BotState) :
    BotState × List Ev :=
  let a := addedPhase o scan st
  let b := modifiedPhase o scan a.1
  let c := removedPhase o scan b.1
  (c.1, a.2 ++ (b.2 ++ c.2))

/-- A directory entry as the scanner sees it: the file name and the
result of `os.path.getmtime` on it (`none` models a raised exception). -/
structure FileEntry where
  name : String
  mtimeResult : Option ℚ
deriving DecidableEq

/-- The file filter at main.py lines 83 and 125: keep names ending in
`.py` that do not start with `__`, stated on the character list of the
name. -/
def isCogFile (e : String) : Bool :=
  decide (e.data.drop (e.data.length - 3) = ['.', 'p', 'y']) &&
    !(decide (e.data.take 2 = ['_', '_']))

/-- The module name derived from a file name: `cogs.` + name minus `.py`
(`entry[:-3]` at main.py lines 85 and 127). -/
def moduleOf (e : String) : String :=
  ⟨("cogs.").data ++ e.data.take (e.data.length - 3)⟩

/-- One entry of the scan: filtered-out names contribute nothing; an
unreadable mtime is recorded as `0.0` (main.py lines 129-132). -/
def scanEntry (f : FileEntry) : Option (String × ℚ) :=
  if isCogFile f.name then some (moduleOf f.name, f.mtimeResult.getD 0)
  else none

/-- The `current` map built by the watcher from the sorted directory
listing (main.py lines 123-132). -/
def buildScan (entries : List FileEntry) : Scan :=
  entries.filterMap scanEntry

/-- One iteration of the startup loader `TuffyBot.load_cogs` (main.py
lines 82-99): filter the entry, read the mtime (`0.0` on failure), try to
load; on success assign the mtime, on failure `setdefault` it. -/
def loadCogsStep (o : Oracle) (acc : BotState × List Ev) (f : FileEntry) :
    BotState × List Ev :=
  if isCogFile f.name then
    let m := moduleOf f.name
    let t := f.mtimeResult.getD 0
    if o.loadOk m then
      (⟨insertD acc.1.cogMtimes m t, insertExt acc.1.extensions m⟩,
        acc.2 ++ [Ev.loadCall m true])
    else
      (⟨setdefaultD acc.1.cogMtimes m t, acc.1.extensions⟩,
        acc.2 ++ [Ev.loadCall m false])
  else acc

/-- The startup loader `TuffyBot.load_cogs` over a sorted listing. -/
def load_cogs (o : Oracle) (entries : List FileEntry) (st : BotState) :
    BotState × List Ev :=
  entries.foldl (loadCogsStep o) (st, [])

/-- Outcome of starting `TuffyBot._cog_watcher`: either it returns at once
(main.py lines 117-118) or it enters the polling loop and runs a first
cycle. -/
inductive WatcherStart where
  | terminated
  | looping (first : BotState × List Ev)
deriving DecidableEq

/-- The head of `TuffyBot._cog_watcher` (main.py lines 116-121): if the
cogs directory does not exist the coroutine returns immediately; otherwise
it enters the loop and the first cycle runs on the scanned directory. -/
def watcherStart (dirExists : Bool) (o : Oracle) (entries : List FileEntry)
    (st : BotState) : WatcherStart :=
  if dirExists then WatcherStart.looping (cogWatcherCycle o (buildScan entries) st)
  else WatcherStart.terminated

/-- The `added` category of the reconciliation diff, read off the
registry snapshot at the start of the cycle: scanned modules absent from
the registry. -/
def addedIds (st : BotState) (scan : Scan) : List String :=
  (scan.filter (fun p => (lookupD st.cogMtimes p.1).isNone)).map Prod.fst

/-- The `modified` test on one scan entry against a registry snapshot:
present with a strictly smaller recorded mtime. -/
def modifiedP (st : BotState) (p : String × ℚ) : Bool :=
  match lookupD st.cogMtimes p.1 with
  | some prev => decide (prev < p.2)
  | none => false

/-- The `modified` category of the reconciliation diff on the snapshot. -/
def modifiedIds (st : BotState) (scan : Scan) : List String :=
  (scan.filter (modifiedP st)).map Prod.fst

/-- Count of `tree.sync` calls in a trace. -/
def syncCount (tr : List Ev) : Nat :=
  (tr.filter (fun e => match e with | Ev.syncCall _ => true | _ => false)).length

/-- Kinds of loader calls. -/
inductive CallKind where
  | loadK
  | reloadK
  | unloadK
deriving DecidableEq

/-- The loader calls of a trace, in order, with their targets but without
their outcomes. -/
def loaderCallsOf : List Ev → List (CallKind × String)
  | [] => []
  | Ev.loadCall m _ :: tr => (CallKind.loadK, m) :: loaderCallsOf tr
  | Ev.reloadCall m _ :: tr => (CallKind.reloadK, m) :: loaderCallsOf tr
  | Ev.unloadCall m _ :: tr => (CallKind.unloadK, m) :: loaderCallsOf tr
  | Ev.syncCall _ :: tr => loaderCallsOf tr

/-- The modules receiving any loader call in a trace. -/
def loaderIds (tr : List Ev) : List String :=
  (loaderCallsOf tr).map Prod.snd

/-- Number of unload calls on a given module in a trace. -/
def unloadCount (m : String) (tr : List Ev) : Nat :=
  (tr.filter
    (fun e => match e with
      | Ev.unloadCall m' _ => decide (m' = m)
      | _ => false)).length

/-- The shape of an event: the call made, forgetting its outcome. -/
inductive Shape where
  | loadS (m : String)
  | reloadS (m : String)
  | unloadS (m : String)
  | syncS
deriving DecidableEq

/-- Shape of one event. -/
def shapeOf : Ev → Shape
  | Ev.loadCall m _ => Shape.loadS m
  | Ev.reloadCall m _ => Shape.reloadS m
  | Ev.unloadCall m _ => Shape.unloadS m
  | Ev.syncCall _ => Shape.syncS

/-- The call sequence of a trace, outcomes forgotten. -/
def shapes (tr : List Ev) : List Shape :=
  tr.map shapeOf

/-- First-some choice on options, used to state the added-loop effect. -/
def orElseO : Option ℚ → Option ℚ → Option ℚ
  | some v, _ => some v
  | none, b => b

/-- Combined mtime after the modified loop: keep the larger of the
recorded and the scanned time, preferring the recorded one on ties. -/
def mergeTs : Option ℚ → Option ℚ → Option ℚ
  | some p, some t => if p < t then some t else some p
  | a, _ => a

/-- Registry value for a module after a full cycle, as a function of its
recorded and scanned mtimes. -/
def cycleTs (prev : Option ℚ) (sc : Option ℚ) : Option ℚ :=
  match sc with
  | none => none
  | some t =>
      match prev with
      | none => some t
      | some p => some (if p < t then t else p)

/-- The `modified` condition for one module name against a snapshot. -/
def modCondB (st : BotState) (scan : Scan) (m : String) : Bool :=
  match lookupD st.cogMtimes m, lookupD scan m with
  | some prev, some t => decide (prev < t)
  | _, _ => false

/-- The event trace the added loop emits for a batch of new modules. -/
def addedTrace (o : Oracle) : List (String × ℚ) → List Ev
  | [] => []
  | p :: rest =>
      Ev.loadCall p.1 (o.loadOk p.1) :: Ev.syncCall o.syncOk :: addedTrace o rest

/-- The event trace the modified loop emits for a batch of changed
modules, deciding reload versus load by the loaded-extensions table. -/
def modifiedTrace (o : Oracle) (ext0 : List String) :
    List (String × ℚ) → List Ev
  | [] => []
  | p :: rest =>
      (if p.1 ∈ ext0 then
        [Ev.reloadCall p.1 (o.reloadOk p.1), Ev.syncCall o.syncOk]
      else [Ev.loadCall p.1 (o.loadOk p.1), Ev.syncCall o.syncOk]) ++
        modifiedTrace o ext0 rest

/-- The event trace the removed loop emits for a batch of vanished
modules, unloading only those currently loaded. -/
def removedTrace (o : Oracle) (ext0 : List String) : List String → List Ev
  | [] => []
  | m :: rest =>
      (if m ∈ ext0 then
        [Ev.unloadCall m (o.unloadOk m), Ev.syncCall o.syncOk]
      else [Ev.syncCall o.syncOk]) ++ removedTrace o ext0 rest

theorem lookupD_insertD (d : Dict) (k m : String) (t : ℚ) :
    lookupD (insertD d k t) m = if k = m then some t else lookupD d m := by
  induction d with
  | nil => simp [insertD, lookupD]
  | cons p rest ih =>
      obtain ⟨a, b⟩ := p
      by_cases h : a = k
      · subst h
        by_cases hm : a = m <;> simp [insertD, lookupD, hm]
      · by_cases hm : a = m
        · subst hm
          have : ¬ k = a := fun hk => h hk.symm
          simp [insertD, lookupD, h, this]
        · simp [insertD, lookupD, h, hm, ih]

theorem lookupD_eraseD_ne (d : Dict) (k m : String) (h : k ≠ m) :
    lookupD (eraseD d k) m = lookupD d m := by
  induction d with
  | nil => simp [eraseD]
  | cons p rest ih =>
      obtain ⟨a, b⟩ := p
      by_cases ha : a = k
      · subst ha
        have : ¬ a = m := fun hm => h hm
        simp [eraseD, lookupD, this]
      · simp [eraseD, lookupD, ha, ih]

theorem mem_keys_of_lookupD {d : Dict} {m : String} {t : ℚ}
    (h : lookupD d m = some t) : m ∈ d.map Prod.fst := by
  induction d with
  | nil => simp [lookupD] at h
  | cons p rest ih =>
      obtain ⟨a, b⟩ := p
      by_cases ha : a = m
      · simp [ha]
      · simp [lookupD, ha] at h
        simp [ih h]

theorem lookupD_eq_none_of_not_mem {d : Dict} {m : String}
    (h : m ∉ d.map Prod.fst) : lookupD d m = none := by
  induction d with
  | nil => simp [lookupD]
  | cons p rest ih =>
      obtain ⟨a, b⟩ := p
      have h1 : ¬ a = m := fun hh => h (by simp [hh])
      have h2 : m ∉ rest.map Prod.fst := fun hh => h (by simp [hh])
      simp [lookupD, h1, ih h2]

theorem lookupD_isSome_of_mem {d : Dict} {p : String × ℚ} (h : p ∈ d) :
    (lookupD d p.1).isSome := by
  induction d with
  | nil => simp at h
  | cons q rest ih =>
      obtain ⟨a, b⟩ := q
      rcases List.mem_cons.1 h with h1 | h2
      · subst h1
        simp [lookupD]
      · by_cases ha : a = p.1 <;> simp [lookupD, ha, ih h2]

theorem lookupD_eraseD_self {d : Dict} (hd : (d.map Prod.fst).Nodup)
    (k : String) : lookupD (eraseD d k) k = none := by
  induction d with
  | nil => simp [eraseD, lookupD]
  | cons p rest ih =>
      obtain ⟨a, b⟩ := p
      simp only [List.map_cons] at hd
      have hd1 : a ∉ rest.map Prod.fst := (List.nodup_cons.1 hd).1
      have hd2 : (rest.map Prod.fst).Nodup := (List.nodup_cons.1 hd).2
      by_cases ha : a = k
      · subst ha
        simp [eraseD, lookupD_eq_none_of_not_mem hd1]
      · simp [eraseD, lookupD, ha, ih hd2]

theorem keys_eraseD (d : Dict) (k : String) :
    (eraseD d k).map Prod.fst =
      if k ∈ d.map Prod.fst then (d.map Prod.fst).eraseP (fun x => decide (x = k))
      else d.map Prod.fst := by
  induction d with
  | nil => simp [eraseD]
  | cons p rest ih =>
      obtain ⟨a, b⟩ := p
      by_cases ha : a = k
      · subst ha
        simp [eraseD, List.eraseP_cons]
      · have : ¬ k = a := fun hk => ha hk.symm
        by_cases hk : k ∈ rest.map Prod.fst <;>
          simp [eraseD, ha, this, hk, ih, List.eraseP_cons]

theorem keys_insertD_of_isSome {d : Dict} {k : String}
    (h : (lookupD d k).isSome) (t : ℚ) :
    (insertD d k t).map Prod.fst = d.map Prod.fst := by
  induction d with
  | nil => simp [lookupD] at h
  | cons p rest ih =>
      obtain ⟨a, b⟩ := p
      by_cases ha : a = k
      · subst ha
        simp [insertD]
      · simp [lookupD, ha] at h
        simp [insertD, ha, ih h]

theorem keys_insertD_of_none {d : Dict} {k : String}
    (h : lookupD d k = none) (t : ℚ) :
    (insertD d k t).map Prod.fst = d.map Prod.fst ++ [k] := by
  induction d with
  | nil => simp [insertD]
  | cons p rest ih =>
      obtain ⟨a, b⟩ := p
      by_cases ha : a = k
      · subst ha
        simp [lookupD] at h
      · simp [lookupD, ha] at h
        simp [insertD, ha, ih h]

theorem mem_insertExt (es : List String) (k m : String) :
    m ∈ insertExt es k ↔ m ∈ es ∨ m = k := by
  by_cases h : k ∈ es
  · simp only [insertExt, if_pos h]
    constructor
    · exact fun hm => Or.inl hm
    · rintro (hm | hm)
      · exact hm
      · subst hm
        exact h
  · simp [insertExt, h]

theorem mem_removeExt (es : List String) (k m : String) :
    m ∈ removeExt es k ↔ m ∈ es ∧ m ≠ k := by
  simp [removeExt]

theorem foldl_ev_acc {α : Type} (step : (BotState × List Ev) → α → (BotState × List Ev))
    (hstep : ∀ s tr x, step (s, tr) x = ((step (s, []) x).1, tr ++ (step (s, []) x).2))
    (l : List α) (s : BotState) (tr : List Ev) :
    l.foldl step (s, tr) = ((l.foldl step (s, [])).1, tr ++ (l.foldl step (s, [])).2) := by
  induction l generalizing s tr with
  | nil => simp
  | cons x l ih =>
      simp only [List.foldl_cons]
      rw [hstep s tr x, hstep s [] x, List.nil_append]
      rw [ih ((step (s, []) x).1) (tr ++ (step (s, []) x).2),
        ih ((step (s, []) x).1) ((step (s, []) x).2)]
      simp [List.append_assoc]

theorem addedStep_acc (o : Oracle) (s : BotState) (tr : List Ev) (x : String × ℚ) :
    addedStep o (s, tr) x = ((addedStep o (s, []) x).1, tr ++ (addedStep o (s, []) x).2) := by
  unfold addedStep
  cases lookupD s.cogMtimes x.1 <;> simp

theorem modifiedStep_acc (o : Oracle) (s : BotState) (tr : List Ev) (x : String × ℚ) :
    modifiedStep o (s, tr) x =
      ((modifiedStep o (s, []) x).1, tr ++ (modifiedStep o (s, []) x).2) := by
  unfold modifiedStep
  cases lookupD s.cogMtimes x.1 with
  | none => simp
  | some prev =>
      by_cases h1 : prev < x.2
      · by_cases h2 : x.1 ∈ s.extensions <;> simp [h1, h2]
      · simp [h1]

theorem removedStep_acc (o : Oracle) (s : BotState) (tr : List Ev) (x : String) :
    removedStep o (s, tr) x =
      ((removedStep o (s, []) x).1, tr ++ (removedStep o (s, []) x).2) := by
  unfold removedStep
  by_cases h : x ∈ s.extensions <;> simp [h]

theorem addedPhase_lookup (o : Oracle) (scan : Scan) (st : BotState) (m : String) :
    lookupD (addedPhase o scan st).1.cogMtimes m =
      orElseO (lookupD st.cogMtimes m) (lookupD scan m) := by
  induction scan generalizing st with
  | nil =>
      cases h : lookupD st.cogMtimes m <;>
        simp [addedPhase, lookupD, orElseO, h]
  | cons p rest ih =>
      simp only [addedPhase, List.foldl_cons]
      cases hp : lookupD st.cogMtimes p.1 with
      | some v =>
          have : addedStep o (st, []) p = (st, []) := by
            unfold addedStep
            rw [hp]
          rw [this]
          rw [show List.foldl (addedStep o) (st, []) rest = addedPhase o rest st from rfl]
          rw [ih st]
          by_cases hm : p.1 = m
          · subst hm
            rw [hp]
            simp [lookupD, orElseO]
          · have : ¬ p.1 = m := hm
            simp [lookupD, this]
      | none =>
          have hstep : addedStep o (st, []) p =
              (⟨insertD st.cogMtimes p.1 p.2,
                if o.loadOk p.1 then insertExt st.extensions p.1 else st.extensions⟩,
               [Ev.loadCall p.1 (o.loadOk p.1), Ev.syncCall o.syncOk]) := by
            unfold addedStep
            rw [hp]
            simp
          rw [hstep]
          rw [foldl_ev_acc (addedStep o) (addedStep_acc o) rest _ _]
          rw [show List.foldl (addedStep o) (_, ([] : List Ev)) rest = addedPhase o rest _ from rfl]
          rw [ih]
          by_cases hm : p.1 = m
          · subst hm
            rw [lookupD_insertD]
            simp [lookupD, orElseO, hp]
          · rw [lookupD_insertD]
            simp [lookupD, hm]

theorem addedPhase_ext (o : Oracle) (scan : Scan) (st : BotState) (m : String) :
    m ∈ (addedPhase o scan st).1.extensions ↔
      m ∈ st.extensions ∨
        ((lookupD st.cogMtimes m).isNone ∧ (lookupD scan m).isSome ∧
          o.loadOk m = true) := by
  induction scan generalizing st with
  | nil => simp [addedPhase, lookupD]
  | cons p rest ih =>
      simp only [addedPhase, List.foldl_cons]
      cases hp : lookupD st.cogMtimes p.1 with
      | some v =>
          have hstep : addedStep o (st, []) p = (st, []) := by
            unfold addedStep
            rw [hp]
          rw [hstep]
          rw [show List.foldl (addedStep o) (st, []) rest = addedPhase o rest st from rfl]
          rw [ih st]
          by_cases hm : p.1 = m
          · subst hm
            simp [lookupD, hp]
          · simp [lookupD, hm]
      | none =>
          have hstep : addedStep o (st, []) p =
              (⟨insertD st.cogMtimes p.1 p.2,
                if o.loadOk p.1 then insertExt st.extensions p.1 else st.extensions⟩,
               [Ev.loadCall p.1 (o.loadOk p.1), Ev.syncCall o.syncOk]) := by
            unfold addedStep
            rw [hp]
            simp
          rw [hstep]
          rw [foldl_ev_acc (addedStep o) (addedStep_acc o) rest _ _]
          rw [show List.foldl (addedStep o) (_, ([] : List Ev)) rest = addedPhase o rest _ from rfl]
          rw [ih]
          by_cases hm : p.1 = m
          · subst hm
            rw [lookupD_insertD]
            by_cases hk : o.loadOk p.1 = true
            · simp [hk, mem_insertExt, lookupD, hp]
            · simp [hk, lookupD, hp]
          · rw [lookupD_insertD]
            by_cases hk : o.loadOk p.1 = true
            · simp [hk, mem_insertExt, lookupD, hm, Ne.symm hm]
            · simp [hk, lookupD, hm]

theorem addedPhase_keys (o : Oracle) (scan : Scan) (st : BotState)
    (hS : (scan.map Prod.fst).Nodup) :
    (addedPhase o scan st).1.cogMtimes.map Prod.fst =
      st.cogMtimes.map Prod.fst ++ addedIds st scan := by
  induction scan generalizing st with
  | nil => simp [addedPhase, addedIds]
  | cons p rest ih =>
      simp only [List.map_cons] at hS
      have hS1 : p.1 ∉ rest.map Prod.fst := (List.nodup_cons.1 hS).1
      have hS2 : (rest.map Prod.fst).Nodup := (List.nodup_cons.1 hS).2
      simp only [addedPhase, List.foldl_cons]
      cases hp : lookupD st.cogMtimes p.1 with
      | some v =>
          have hstep : addedStep o (st, []) p = (st, []) := by
            unfold addedStep
            rw [hp]
          rw [hstep]
          rw [show List.foldl (addedStep o) (st, []) rest = addedPhase o rest st from rfl]
          rw [ih st hS2]
          have : addedIds st (p :: rest) = addedIds st rest := by
            simp [addedIds, List.filter_cons, hp]
          rw [this]
      | none =>
          have hstep : addedStep o (st, []) p =
              (⟨insertD st.cogMtimes p.1 p.2,
                if o.loadOk p.1 then insertExt st.extensions p.1 else st.extensions⟩,
               [Ev.loadCall p.1 (o.loadOk p.1), Ev.syncCall o.syncOk]) := by
            unfold addedStep
            rw [hp]
            simp
          rw [hstep]
          rw [foldl_ev_acc (addedStep o) (addedStep_acc o) rest _ _]
          rw [show List.foldl (addedStep o) (_, ([] : List Ev)) rest = addedPhase o rest _ from rfl]
          rw [ih _ hS2]
          have hkeys := keys_insertD_of_none hp p.2
          have hadd : addedIds ⟨insertD st.cogMtimes p.1 p.2,
              if o.loadOk p.1 then insertExt st.extensions p.1 else st.extensions⟩ rest =
              addedIds st rest := by
            unfold addedIds
            have : ∀ q ∈ rest,
                ((lookupD (insertD st.cogMtimes p.1 p.2) q.1).isNone : Bool) =
                  ((lookupD st.cogMtimes q.1).isNone : Bool) := by
              intro q hq
              have hne : p.1 ≠ q.1 := by
                intro hh
                exact hS1 (hh ▸ List.mem_map_of_mem Prod.fst hq)
              rw [lookupD_insertD]
              simp [hne]
            rw [List.filter_congr this]
          simp only [hadd, hkeys]
          have : addedIds st (p :: rest) = p.1 :: addedIds st rest := by
            simp [addedIds, List.filter_cons, hp]
          rw [this]
          simp

theorem addedPhase_trace (o : Oracle) (scan : Scan) (st : BotState)
    (hS : (scan.map Prod.fst).Nodup) :
    (addedPhase o scan st).2 =
      addedTrace o (scan.filter (fun p => (lookupD st.cogMtimes p.1).isNone)) := by
  induction scan generalizing st with
  | nil => simp [addedPhase, addedTrace]
  | cons p rest ih =>
      simp only [List.map_cons] at hS
      have hS1 : p.1 ∉ rest.map Prod.fst := (List.nodup_cons.1 hS).1
      have hS2 : (rest.map Prod.fst).Nodup := (List.nodup_cons.1 hS).2
      simp only [addedPhase, List.foldl_cons]
      cases hp : lookupD st.cogMtimes p.1 with
      | some v =>
          have hstep : addedStep o (st, []) p = (st, []) := by
            unfold addedStep
            rw [hp]
          rw [hstep]
          rw [show List.foldl (addedStep o) (st, []) rest = addedPhase o rest st from rfl]
          rw [ih st hS2]
          simp [List.filter_cons, hp]
      | none =>
          have hstep : addedStep o (st, []) p =
              (⟨insertD st.cogMtimes p.1 p.2,
                if o.loadOk p.1 then insertExt st.extensions p.1 else st.extensions⟩,
               [Ev.loadCall p.1 (o.loadOk p.1), Ev.syncCall o.syncOk]) := by
            unfold addedStep
            rw [hp]
            simp
          rw [hstep]
          rw [foldl_ev_acc (addedStep o) (addedStep_acc o) rest _ _]
          rw [show List.foldl (addedStep o) (_, ([] : List Ev)) rest = addedPhase o rest _ from rfl]
          rw [ih _ hS2]
          have hfc : rest.filter (fun q => (lookupD (insertD st.cogMtimes p.1 p.2) q.1).isNone) =
              rest.filter (fun q => (lookupD st.cogMtimes q.1).isNone) := by
            apply List.filter_congr
            intro q hq
            have hne : p.1 ≠ q.1 := by
              intro hh
              exact hS1 (hh ▸ List.mem_map_of_mem Prod.fst hq)
            rw [lookupD_insertD]
            simp [hne]
          simp only [hfc]
          simp [List.filter_cons, hp, addedTrace]

theorem modifiedTrace_congr (o : Oracle) (e1 e2 : List String)
    (l : List (String × ℚ)) (h : ∀ p ∈ l, p.1 ∈ e1 ↔ p.1 ∈ e2) :
    modifiedTrace o e1 l = modifiedTrace o e2 l := by
  induction l with
  | nil => rfl
  | cons p rest ih =>
      have hp := h p (List.mem_cons_self p rest)
      have hrest := ih (fun q hq => h q (List.mem_cons_of_mem p hq))
      by_cases h1 : p.1 ∈ e1
      · have h2 : p.1 ∈ e2 := hp.1 h1
        simp [modifiedTrace, h1, h2, hrest]
      · have h2 : p.1 ∉ e2 := fun hh => h1 (hp.2 hh)
        simp [modifiedTrace, h1, h2, hrest]

theorem removedTrace_congr (o : Oracle) (e1 e2 : List String)
    (l : List String) (h : ∀ m ∈ l, m ∈ e1 ↔ m ∈ e2) :
    removedTrace o e1 l = removedTrace o e2 l := by
  induction l with
  | nil => rfl
  | cons m rest ih =>
      have hm := h m (List.mem_cons_self m rest)
      have hrest := ih (fun q hq => h q (List.mem_cons_of_mem m hq))
      by_cases h1 : m ∈ e1
      · have h2 : m ∈ e2 := hm.1 h1
        simp [removedTrace, h1, h2, hrest]
      · have h2 : m ∉ e2 := fun hh => h1 (hm.2 hh)
        simp [removedTrace, h1, h2, hrest]

theorem modifiedStep_none {o : Oracle} {st : BotState} {p : String × ℚ}
    (hp : lookupD st.cogMtimes p.1 = none) :
    modifiedStep o (st, []) p = (st, []) := by
  unfold modifiedStep
  rw [hp]

theorem modifiedStep_stale {o : Oracle} {st : BotState} {p : String × ℚ}
    {prev : ℚ} (hp : lookupD st.cogMtimes p.1 = some prev)
    (hlt : ¬ prev < p.2) :
    modifiedStep o (st, []) p = (st, []) := by
  unfold modifiedStep
  rw [hp]
  simp [hlt]

theorem modifiedStep_reload {o : Oracle} {st : BotState} {p : String × ℚ}
    {prev : ℚ} (hp : lookupD st.cogMtimes p.1 = some prev)
    (hlt : prev < p.2) (hext : p.1 ∈ st.extensions) :
    modifiedStep o (st, []) p =
      (⟨insertD st.cogMtimes p.1 p.2, st.extensions⟩,
        [Ev.reloadCall p.1 (o.reloadOk p.1), Ev.syncCall o.syncOk]) := by
  unfold modifiedStep
  rw [hp]
  simp [hlt, hext]

theorem modifiedStep_load {o : Oracle} {st : BotState} {p : String × ℚ}
    {prev : ℚ} (hp : lookupD st.cogMtimes p.1 = some prev)
    (hlt : prev < p.2) (hext : p.1 ∉ st.extensions) :
    modifiedStep o (st, []) p =
      (⟨insertD st.cogMtimes p.1 p.2,
        if o.loadOk p.1 then insertExt st.extensions p.1 else st.extensions⟩,
        [Ev.loadCall p.1 (o.loadOk p.1), Ev.syncCall o.syncOk]) := by
  unfold modifiedStep
  rw [hp]
  simp [hlt, hext]

theorem modifiedPhase_lookup (o : Oracle) (scan : Scan) (st : BotState)
    (m : String) (hS : (scan.map Prod.fst).Nodup) :
    lookupD (modifiedPhase o scan st).1.cogMtimes m =
      mergeTs (lookupD st.cogMtimes m) (lookupD scan m) := by
  induction scan generalizing st with
  | nil =>
      cases h : lookupD st.cogMtimes m <;>
        simp [modifiedPhase, lookupD, mergeTs, h]
  | cons p rest ih =>
      simp only [List.map_cons] at hS
      have hS1 : p.1 ∉ rest.map Prod.fst := (List.nodup_cons.1 hS).1
      have hS2 : (rest.map Prod.fst).Nodup := (List.nodup_cons.1 hS).2
      simp only [modifiedPhase, List.foldl_cons]
      have hrest : ∀ st' : BotState,
          List.foldl (modifiedStep o) (st', ([] : List Ev)) rest =
            modifiedPhase o rest st' := fun _ => rfl
      cases hp : lookupD st.cogMtimes p.1 with
      | none =>
          rw [modifiedStep_none hp, hrest st, ih st hS2]
          by_cases hm : p.1 = m
          · subst hm
            rw [hp]
            simp [lookupD, mergeTs]
          · simp [lookupD, hm]
      | some prev =>
          by_cases hlt : prev < p.2
          · by_cases hext : p.1 ∈ st.extensions
            · rw [modifiedStep_reload hp hlt hext]
              rw [foldl_ev_acc (modifiedStep o) (modifiedStep_acc o) rest _ _]
              rw [hrest, ih _ hS2]
              by_cases hm : p.1 = m
              · subst hm
                rw [lookupD_insertD]
                rw [lookupD_eq_none_of_not_mem hS1]
                simp [lookupD, mergeTs, hp, hlt]
              · rw [lookupD_insertD]
                simp [lookupD, hm]
            · rw [modifiedStep_load hp hlt hext]
              rw [foldl_ev_acc (modifiedStep o) (modifiedStep_acc o) rest _ _]
              rw [hrest, ih _ hS2]
              by_cases hm : p.1 = m
              · subst hm
                rw [lookupD_insertD]
                rw [lookupD_eq_none_of_not_mem hS1]
                simp [lookupD, mergeTs, hp, hlt]
              · rw [lookupD_insertD]
                simp [lookupD, hm]
          · rw [modifiedStep_stale hp hlt, hrest st, ih st hS2]
            by_cases hm : p.1 = m
            · subst hm
              rw [lookupD_eq_none_of_not_mem hS1, hp]
              simp [lookupD, mergeTs, hlt]
            · simp [lookupD, hm]

theorem modifiedPhase_ext (o : Oracle) (scan : Scan) (st : BotState)
    (m : String) (hS : (scan.map Prod.fst).Nodup) :
    m ∈ (modifiedPhase o scan st).1.extensions ↔
      m ∈ st.extensions ∨
        (modCondB st scan m = true ∧ o.loadOk m = true) := by
  induction scan generalizing st with
  | nil =>
      cases h : lookupD st.cogMtimes m <;>
        simp [modifiedPhase, modCondB, lookupD, h]
  | cons p rest ih =>
      simp only [List.map_cons] at hS
      have hS1 : p.1 ∉ rest.map Prod.fst := (List.nodup_cons.1 hS).1
      have hS2 : (rest.map Prod.fst).Nodup := (List.nodup_cons.1 hS).2
      simp only [modifiedPhase, List.foldl_cons]
      have hrest : ∀ st' : BotState,
          List.foldl (modifiedStep o) (st', ([] : List Ev)) rest =
            modifiedPhase o rest st' := fun _ => rfl
      cases hp : lookupD st.cogMtimes p.1 with
      | none =>
          rw [modifiedStep_none hp, hrest st, ih st hS2]
          by_cases hm : p.1 = m
          · subst hm
            simp [modCondB, lookupD, hp]
          · simp [modCondB, lookupD, hm]
      | some prev =>
          by_cases hlt : prev < p.2
          · by_cases hext : p.1 ∈ st.extensions
            · rw [modifiedStep_reload hp hlt hext]
              rw [foldl_ev_acc (modifiedStep o) (modifiedStep_acc o) rest _ _]
              rw [hrest, ih _ hS2]
              by_cases hm : p.1 = m
              · subst hm
                simp [hext, modCondB, lookupD]
              · simp [modCondB, lookupD, hm, lookupD_insertD]
            · rw [modifiedStep_load hp hlt hext]
              rw [foldl_ev_acc (modifiedStep o) (modifiedStep_acc o) rest _ _]
              rw [hrest, ih _ hS2]
              by_cases hm : p.1 = m
              · subst hm
                have hr := lookupD_eq_none_of_not_mem hS1
                by_cases hk : o.loadOk p.1 = true
                · simp [hk, mem_insertExt, hext, modCondB, lookupD, hp, hlt, hr,
                    lookupD_insertD]
                · simp [hk, hext, modCondB, lookupD, hp, hlt, hr]
              · by_cases hk : o.loadOk p.1 = true
                · simp [hk, mem_insertExt, hm, Ne.symm hm, modCondB, lookupD,
                    lookupD_insertD]
                · simp [hk, modCondB, lookupD, hm, lookupD_insertD]
          · rw [modifiedStep_stale hp hlt, hrest st, ih st hS2]
            by_cases hm : p.1 = m
            · subst hm
              have hr := lookupD_eq_none_of_not_mem hS1
              simp [modCondB, lookupD, hp, hlt, hr]
            · simp [modCondB, lookupD, hm]

theorem modifiedPhase_keys (o : Oracle) (scan : Scan) (st : BotState) :
    (modifiedPhase o scan st).1.cogMtimes.map Prod.fst =
      st.cogMtimes.map Prod.fst := by
  induction scan generalizing st with
  | nil => rfl
  | cons p rest ih =>
      simp only [modifiedPhase, List.foldl_cons]
      have hrest : ∀ st' : BotState,
          List.foldl (modifiedStep o) (st', ([] : List Ev)) rest =
            modifiedPhase o rest st' := fun _ => rfl
      cases hp : lookupD st.cogMtimes p.1 with
      | none =>
          rw [modifiedStep_none hp, hrest st, ih st]
      | some prev =>
          by_cases hlt : prev < p.2
          · have hkeys : (insertD st.cogMtimes p.1 p.2).map Prod.fst =
                st.cogMtimes.map Prod.fst :=
              keys_insertD_of_isSome (by rw [hp]; rfl) p.2
            by_cases hext : p.1 ∈ st.extensions
            · rw [modifiedStep_reload hp hlt hext]
              rw [foldl_ev_acc (modifiedStep o) (modifiedStep_acc o) rest _ _]
              rw [hrest, ih _]
              exact hkeys
            · rw [modifiedStep_load hp hlt hext]
              rw [foldl_ev_acc (modifiedStep o) (modifiedStep_acc o) rest _ _]
              rw [hrest, ih _]
              exact hkeys
          · rw [modifiedStep_stale hp hlt, hrest st, ih st]

theorem modifiedPhase_trace (o : Oracle) (scan : Scan) (st : BotState)
    (hS : (scan.map Prod.fst).Nodup) :
    (modifiedPhase o scan st).2 =
      modifiedTrace o st.extensions (scan.filter (modifiedP st)) := by
  induction scan generalizing st with
  | nil => rfl
  | cons p rest ih =>
      simp only [List.map_cons] at hS
      have hS1 : p.1 ∉ rest.map Prod.fst := (List.nodup_cons.1 hS).1
      have hS2 : (rest.map Prod.fst).Nodup := (List.nodup_cons.1 hS).2
      simp only [modifiedPhase, List.foldl_cons]
      have hrest : ∀ st' : BotState,
          List.foldl (modifiedStep o) (st', ([] : List Ev)) rest =
            modifiedPhase o rest st' := fun _ => rfl
      have hne : ∀ q ∈ rest, p.1 ≠ q.1 := by
        intro q hq hh
        exact hS1 (hh ▸ List.mem_map_of_mem Prod.fst hq)
      cases hp : lookupD st.cogMtimes p.1 with
      | none =>
          rw [modifiedStep_none hp, hrest st, ih st hS2]
          simp [List.filter_cons, modifiedP, hp]
      | some prev =>
          by_cases hlt : prev < p.2
          · by_cases hext : p.1 ∈ st.extensions
            · rw [modifiedStep_reload hp hlt hext]
              rw [foldl_ev_acc (modifiedStep o) (modifiedStep_acc o) rest _ _]
              rw [hrest, ih _ hS2]
              have hfc : rest.filter
                  (modifiedP ⟨insertD st.cogMtimes p.1 p.2, st.extensions⟩) =
                  rest.filter (modifiedP st) := by
                apply List.filter_congr
                intro q hq
                simp [modifiedP, lookupD_insertD, hne q hq]
              rw [hfc]
              simp [List.filter_cons, modifiedP, hp, hlt, modifiedTrace, hext]
            · rw [modifiedStep_load hp hlt hext]
              rw [foldl_ev_acc (modifiedStep o) (modifiedStep_acc o) rest _ _]
              rw [hrest, ih _ hS2]
              have hfc : rest.filter
                  (modifiedP ⟨insertD st.cogMtimes p.1 p.2,
                    if o.loadOk p.1 then insertExt st.extensions p.1
                    else st.extensions⟩) =
                  rest.filter (modifiedP st) := by
                apply List.filter_congr
                intro q hq
                simp [modifiedP, lookupD_insertD, hne q hq]
              rw [hfc]
              have hcg : modifiedTrace o
                  (if o.loadOk p.1 then insertExt st.extensions p.1
                    else st.extensions)
                  (rest.filter (modifiedP st)) =
                  modifiedTrace o st.extensions (rest.filter (modifiedP st)) := by
                apply modifiedTrace_congr
                intro q hq
                have hq' : q ∈ rest := List.mem_of_mem_filter hq
                by_cases hk : o.loadOk p.1 = true
                · simp [hk, mem_insertExt, Ne.symm (hne q hq')]
                · simp [hk]
              rw [hcg]
              simp [List.filter_cons, modifiedP, hp, hlt, modifiedTrace, hext]
          · rw [modifiedStep_stale hp hlt, hrest st, ih st hS2]
            simp [List.filter_cons, modifiedP, hp, hlt]

theorem removedStep_mem {o : Oracle} {st : BotState} {m : String}
    (h : m ∈ st.extensions) :
    removedStep o (st, []) m =
      (⟨eraseD st.cogMtimes m,
        if o.unloadOk m then removeExt st.extensions m else st.extensions⟩,
        [Ev.unloadCall m (o.unloadOk m), Ev.syncCall o.syncOk]) := by
  unfold removedStep
  simp [h]

theorem removedStep_notMem {o : Oracle} {st : BotState} {m : String}
    (h : m ∉ st.extensions) :
    removedStep o (st, []) m =
      (⟨eraseD st.cogMtimes m, st.extensions⟩, [Ev.syncCall o.syncOk]) := by
  unfold removedStep
  simp [h]

theorem nodup_keys_eraseD {d : Dict} (hR : (d.map Prod.fst).Nodup)
    (k : String) : ((eraseD d k).map Prod.fst).Nodup := by
  rw [keys_eraseD]
  by_cases h : k ∈ d.map Prod.fst
  · rw [if_pos h]
    exact List.Nodup.sublist (List.eraseP_sublist _) hR
  · rw [if_neg h]
    exact hR

theorem removedFold_trace (o : Oracle) (L : List String) (st : BotState)
    (hL : L.Nodup) :
    (L.foldl (removedStep o) (st, ([] : List Ev))).2 =
      removedTrace o st.extensions L := by
  induction L generalizing st with
  | nil => rfl
  | cons k rest ih =>
      have hL1 : k ∉ rest := (List.nodup_cons.1 hL).1
      have hL2 : rest.Nodup := (List.nodup_cons.1 hL).2
      simp only [List.foldl_cons]
      by_cases hk : k ∈ st.extensions
      · rw [removedStep_mem hk]
        rw [foldl_ev_acc (removedStep o) (removedStep_acc o) rest _ _]
        rw [ih _ hL2]
        have hcg : removedTrace o
            (if o.unloadOk k then removeExt st.extensions k else st.extensions)
            rest = removedTrace o st.extensions rest := by
          apply removedTrace_congr
          intro q hq
          have hqk : q ≠ k := fun hh => hL1 (hh ▸ hq)
          by_cases hu : o.unloadOk k = true
          · simp [hu, mem_removeExt, hqk]
          · simp [hu]
        rw [hcg]
        simp [removedTrace, hk]
      · rw [removedStep_notMem hk]
        rw [foldl_ev_acc (removedStep o) (removedStep_acc o) rest _ _]
        rw [ih _ hL2]
        simp [removedTrace, hk]

theorem removedFold_lookup (o : Oracle) (L : List String) (st : BotState)
    (m : String) (hR : (st.cogMtimes.map Prod.fst).Nodup) :
    lookupD (L.foldl (removedStep o) (st, ([] : List Ev))).1.cogMtimes m =
      if m ∈ L then none else lookupD st.cogMtimes m := by
  induction L generalizing st with
  | nil => simp
  | cons k rest ih =>
      simp only [List.foldl_cons]
      have hnod : ((eraseD st.cogMtimes k).map Prod.fst).Nodup :=
        nodup_keys_eraseD hR k
      by_cases hk : k ∈ st.extensions
      · rw [removedStep_mem hk]
        rw [foldl_ev_acc (removedStep o) (removedStep_acc o) rest _ _]
        rw [ih ⟨eraseD st.cogMtimes k,
          if o.unloadOk k then removeExt st.extensions k else st.extensions⟩ hnod]
        by_cases hmr : m ∈ rest
        · simp [hmr]
        · by_cases hmk : m = k
          · subst hmk
            simp [hmr, lookupD_eraseD_self hR]
          · have hkm : k ≠ m := fun hh => hmk hh.symm
            simp [hmr, hmk, lookupD_eraseD_ne _ _ _ hkm]
      · rw [removedStep_notMem hk]
        rw [foldl_ev_acc (removedStep o) (removedStep_acc o) rest _ _]
        rw [ih ⟨eraseD st.cogMtimes k, st.extensions⟩ hnod]
        by_cases hmr : m ∈ rest
        · simp [hmr]
        · by_cases hmk : m = k
          · subst hmk
            simp [hmr, lookupD_eraseD_self hR]
          · have hkm : k ≠ m := fun hh => hmk hh.symm
            simp [hmr, hmk, lookupD_eraseD_ne _ _ _ hkm]

theorem removedPhase_trace (o : Oracle) (scan : Scan) (st : BotState)
    (hR : (st.cogMtimes.map Prod.fst).Nodup) :
    (removedPhase o scan st).2 =
      removedTrace o st.extensions (removedIds st scan) :=
  removedFold_trace o _ st (List.Nodup.filter _ hR)

theorem removedPhase_lookup (o : Oracle) (scan : Scan) (st : BotState)
    (m : String) (hR : (st.cogMtimes.map Prod.fst).Nodup) :
    lookupD (removedPhase o scan st).1.cogMtimes m =
      if m ∈ removedIds st scan then none else lookupD st.cogMtimes m :=
  removedFold_lookup o _ st m hR

theorem lookupD_of_mem_nodup {scan : Scan} (hS : (scan.map Prod.fst).Nodup)
    {p : String × ℚ} (hp : p ∈ scan) : lookupD scan p.1 = some p.2 := by
  induction scan with
  | nil => simp at hp
  | cons q rest ih =>
      simp only [List.map_cons] at hS
      have hS1 : q.1 ∉ rest.map Prod.fst := (List.nodup_cons.1 hS).1
      have hS2 : (rest.map Prod.fst).Nodup := (List.nodup_cons.1 hS).2
      rcases List.mem_cons.1 hp with h | h
      · subst h
        obtain ⟨a, b⟩ := p
        simp [lookupD]
      · have hne : ¬ q.1 = p.1 := by
          intro hh
          exact hS1 (hh ▸ List.mem_map_of_mem Prod.fst h)
        obtain ⟨a, b⟩ := q
        simp only [lookupD, if_neg hne]
        exact ih hS2 h

theorem lookupD_isSome_of_mem_keys {d : Dict} {m : String}
    (h : m ∈ d.map Prod.fst) : (lookupD d m).isSome := by
  induction d with
  | nil => simp at h
  | cons p rest ih =>
      obtain ⟨a, b⟩ := p
      by_cases ha : a = m
      · simp [lookupD, ha]
      · simp only [List.map_cons, List.mem_cons] at h
        rcases h with h | h
        · exact absurd h.symm ha
        · simp [lookupD, ha, ih h]

theorem mem_addedIds {st : BotState} {scan : Scan} {m : String}
    (h : m ∈ addedIds st scan) :
    (lookupD st.cogMtimes m).isNone ∧ (lookupD scan m).isSome := by
  unfold addedIds at h
  rcases List.mem_map.1 h with ⟨p, hp, hpm⟩
  rcases List.mem_filter.1 hp with ⟨hmem, hcond⟩
  subst hpm
  exact ⟨by simpa using hcond, lookupD_isSome_of_mem hmem⟩

theorem mem_removedIds {st : BotState} {scan : Scan} {m : String} :
    m ∈ removedIds st scan ↔
      m ∈ st.cogMtimes.map Prod.fst ∧ (lookupD scan m).isNone := by
  simp [removedIds, List.mem_filter]

theorem addedIds_nodup {st : BotState} {scan : Scan}
    (hS : (scan.map Prod.fst).Nodup) : (addedIds st scan).Nodup := by
  have hsub : (addedIds st scan).Sublist (scan.map Prod.fst) :=
    List.Sublist.map Prod.fst (List.filter_sublist scan)
  exact List.Nodup.sublist hsub hS

theorem modifiedP_of_lookup {st : BotState} {p : String × ℚ}
    (h : modifiedP st p = true) :
    ∃ prev, lookupD st.cogMtimes p.1 = some prev ∧ prev < p.2 := by
  unfold modifiedP at h
  cases hp : lookupD st.cogMtimes p.1 with
  | none => rw [hp] at h; simp at h
  | some prev =>
      rw [hp] at h
      simp at h
      exact ⟨prev, rfl, h⟩

theorem cycle_keys_mid (o : Oracle) (scan : Scan) (st : BotState)
    (hS : (scan.map Prod.fst).Nodup) :
    ((modifiedPhase o scan (addedPhase o scan st).1).1.cogMtimes.map Prod.fst) =
      st.cogMtimes.map Prod.fst ++ addedIds st scan := by
  rw [modifiedPhase_keys, addedPhase_keys o scan st hS]

theorem cycle_keys_mid_nodup (o : Oracle) (scan : Scan) (st : BotState)
    (hS : (scan.map Prod.fst).Nodup)
    (hR : (st.cogMtimes.map Prod.fst).Nodup) :
    ((modifiedPhase o scan (addedPhase o scan st).1).1.cogMtimes.map Prod.fst).Nodup := by
  rw [cycle_keys_mid o scan st hS]
  rw [List.nodup_append]
  refine ⟨hR, addedIds_nodup hS, ?_⟩
  intro m hm hm'
  have h1 : (lookupD st.cogMtimes m).isSome := lookupD_isSome_of_mem_keys hm
  have h2 : (lookupD st.cogMtimes m).isNone := (mem_addedIds hm').1
  cases h : lookupD st.cogMtimes m <;> rw [h] at h1 h2 <;> simp at h1 h2

theorem cycle_removedIds_mid (o : Oracle) (scan : Scan) (st : BotState)
    (hS : (scan.map Prod.fst).Nodup) :
    removedIds (modifiedPhase o scan (addedPhase o scan st).1).1 scan =
      removedIds st scan := by
  unfold removedIds
  rw [cycle_keys_mid o scan st hS]
  rw [List.filter_append]
  have hnil : (addedIds st scan).filter (fun m => (lookupD scan m).isNone) = [] := by
    rw [List.filter_eq_nil_iff]
    intro m hm
    have h2 := (mem_addedIds hm).2
    cases h : lookupD scan m <;> rw [h] at h2 <;> simp at h2 ⊢
  rw [hnil, List.append_nil]

theorem cycle_filter_modified (o : Oracle) (scan : Scan) (st : BotState)
    (hS : (scan.map Prod.fst).Nodup) :
    scan.filter (modifiedP (addedPhase o scan st).1) =
      scan.filter (modifiedP st) := by
  apply List.filter_congr
  intro p hp
  have hscan : lookupD scan p.1 = some p.2 := lookupD_of_mem_nodup hS hp
  unfold modifiedP
  rw [addedPhase_lookup]
  cases h : lookupD st.cogMtimes p.1 with
  | some prev => simp [orElseO]
  | none =>
      rw [hscan]
      simp [orElseO]

theorem cycle_ext_modified (o : Oracle) (scan : Scan) (st : BotState)
    (p : String × ℚ) (hp : p ∈ scan.filter (modifiedP st)) :
    p.1 ∈ (addedPhase o scan st).1.extensions ↔ p.1 ∈ st.extensions := by
  rcases List.mem_filter.1 hp with ⟨hmem, hcond⟩
  rcases modifiedP_of_lookup hcond with ⟨prev, hprev, _⟩
  rw [addedPhase_ext]
  simp [hprev]

theorem cycle_ext_removed (o : Oracle) (scan : Scan) (st : BotState)
    (hS : (scan.map Prod.fst).Nodup) (m : String)
    (hm : m ∈ removedIds st scan) :
    (m ∈ (modifiedPhase o scan (addedPhase o scan st).1).1.extensions ↔
      m ∈ st.extensions) := by
  rcases mem_removedIds.1 hm with ⟨hkeys, hnone⟩
  have hsome : (lookupD st.cogMtimes m).isSome := lookupD_isSome_of_mem_keys hkeys
  rw [modifiedPhase_ext o scan _ m hS]
  rw [addedPhase_ext]
  have hmc : modCondB (addedPhase o scan st).1 scan m = false := by
    unfold modCondB
    cases hsc : lookupD scan m with
    | some t => rw [hsc] at hnone; simp at hnone
    | none =>
        cases lookupD (addedPhase o scan st).1.cogMtimes m <;> simp
  rw [hmc]
  cases h : lookupD st.cogMtimes m with
  | none => rw [h] at hsome; simp at hsome
  | some v => simp [h]

theorem cycle_trace (o : Oracle) (scan : Scan) (st : BotState)
    (hS : (scan.map Prod.fst).Nodup)
    (hR : (st.cogMtimes.map Prod.fst).Nodup) :
    (cogWatcherCycle o scan st).2 =
      addedTrace o (scan.filter (fun p => (lookupD st.cogMtimes p.1).isNone)) ++
        (modifiedTrace o st.extensions (scan.filter (modifiedP st)) ++
          removedTrace o st.extensions (removedIds st scan)) := by
  unfold cogWatcherCycle
  simp only []
  congr 1
  · exact addedPhase_trace o scan st hS
  congr 1
  · rw [modifiedPhase_trace o scan _ hS]
    rw [cycle_filter_modified o scan st hS]
    exact modifiedTrace_congr o _ _ _ (fun p hp => cycle_ext_modified o scan st p hp)
  · rw [removedPhase_trace o scan _ (cycle_keys_mid_nodup o scan st hS hR)]
    rw [cycle_removedIds_mid o scan st hS]
    exact removedTrace_congr o _ _ _ (fun m hm => cycle_ext_removed o scan st hS m hm)

theorem cycle_lookup (o : Oracle) (scan : Scan) (st : BotState) (m : String)
    (hS : (scan.map Prod.fst).Nodup)
    (hR : (st.cogMtimes.map Prod.fst).Nodup) :
    lookupD (cogWatcherCycle o scan st).1.cogMtimes m =
      cycleTs (lookupD st.cogMtimes m) (lookupD scan m) := by
  unfold cogWatcherCycle
  simp only []
  rw [removedPhase_lookup o scan _ m (cycle_keys_mid_nodup o scan st hS hR)]
  rw [cycle_removedIds_mid o scan st hS]
  rw [modifiedPhase_lookup o scan _ m hS]
  rw [addedPhase_lookup o scan st m]
  cases hsc : lookupD scan m with
  | none =>
      cases hst : lookupD st.cogMtimes m with
      | none =>
          have : m ∉ removedIds st scan := by
            intro hmem
            have := (mem_removedIds.1 hmem).1
            have h2 := lookupD_isSome_of_mem_keys this
            rw [hst] at h2
            simp at h2
          simp [this, orElseO, mergeTs, cycleTs]
      | some v =>
          have : m ∈ removedIds st scan := by
            rw [mem_removedIds]
            exact ⟨mem_keys_of_lookupD hst, by rw [hsc]; rfl⟩
          simp [this, cycleTs]
  | some t =>
      have hnot : m ∉ removedIds st scan := by
        intro hmem
        have := (mem_removedIds.1 hmem).2
        rw [hsc] at this
        simp at this
      cases hst : lookupD st.cogMtimes m with
      | none => simp [hnot, orElseO, mergeTs, cycleTs]
      | some v =>
          simp only [hnot, if_neg, orElseO, mergeTs, cycleTs]
          by_cases hvt : v < t <;> simp [hvt]

theorem syncCount_append (a b : List Ev) :
    syncCount (a ++ b) = syncCount a + syncCount b := by
  simp [syncCount, List.filter_append]

theorem syncCount_addedTrace (o : Oracle) (l : List (String × ℚ)) :
    syncCount (addedTrace o l) = l.length := by
  induction l with
  | nil => rfl
  | cons p rest ih => simp [addedTrace, syncCount, List.filter_cons] at ih ⊢; omega

theorem syncCount_modifiedTrace (o : Oracle) (e : List String)
    (l : List (String × ℚ)) : syncCount (modifiedTrace o e l) = l.length := by
  induction l with
  | nil => rfl
  | cons p rest ih =>
      have hdef : modifiedTrace o e (p :: rest) =
          (if p.1 ∈ e then
            [Ev.reloadCall p.1 (o.reloadOk p.1), Ev.syncCall o.syncOk]
          else [Ev.loadCall p.1 (o.loadOk p.1), Ev.syncCall o.syncOk]) ++
            modifiedTrace o e rest := rfl
      rw [hdef, syncCount_append, ih]
      by_cases h : p.1 ∈ e <;> simp [h, syncCount] <;> omega

theorem syncCount_removedTrace (o : Oracle) (e : List String)
    (L : List String) : syncCount (removedTrace o e L) = L.length := by
  induction L with
  | nil => rfl
  | cons m rest ih =>
      have hdef : removedTrace o e (m :: rest) =
          (if m ∈ e then
            [Ev.unloadCall m (o.unloadOk m), Ev.syncCall o.syncOk]
          else [Ev.syncCall o.syncOk]) ++ removedTrace o e rest := rfl
      rw [hdef, syncCount_append, ih]
      by_cases h : m ∈ e <;> simp [h, syncCount] <;> omega

theorem loaderCallsOf_append (a b : List Ev) :
    loaderCallsOf (a ++ b) = loaderCallsOf a ++ loaderCallsOf b := by
  induction a with
  | nil => rfl
  | cons e rest ih => cases e <;> simp [loaderCallsOf, ih]

theorem loaderCallsOf_addedTrace (o : Oracle) (l : List (String × ℚ)) :
    loaderCallsOf (addedTrace o l) = l.map (fun p => (CallKind.loadK, p.1)) := by
  induction l with
  | nil => rfl
  | cons p rest ih => simp [addedTrace, loaderCallsOf, ih]

theorem loaderCallsOf_modifiedTrace (o : Oracle) (e : List String)
    (l : List (String × ℚ)) :
    loaderCallsOf (modifiedTrace o e l) =
      l.map (fun p =>
        (if p.1 ∈ e then CallKind.reloadK else CallKind.loadK, p.1)) := by
  induction l with
  | nil => rfl
  | cons p rest ih =>
      by_cases h : p.1 ∈ e <;> simp [modifiedTrace, h, loaderCallsOf, ih]

theorem loaderCallsOf_removedTrace (o : Oracle) (e : List String)
    (L : List String) :
    loaderCallsOf (removedTrace o e L) =
      (L.filter (fun m => decide (m ∈ e))).map
        (fun m => (CallKind.unloadK, m)) := by
  induction L with
  | nil => rfl
  | cons m rest ih =>
      by_cases h : m ∈ e <;>
        simp [removedTrace, h, loaderCallsOf, ih, List.filter_cons]

theorem unloadCount_append (m : String) (a b : List Ev) :
    unloadCount m (a ++ b) = unloadCount m a + unloadCount m b := by
  simp [unloadCount, List.filter_append]

theorem unloadCount_addedTrace (m : String) (o : Oracle)
    (l : List (String × ℚ)) : unloadCount m (addedTrace o l) = 0 := by
  induction l with
  | nil => rfl
  | cons p rest ih =>
      have hdef : addedTrace o (p :: rest) =
          [Ev.loadCall p.1 (o.loadOk p.1), Ev.syncCall o.syncOk] ++
            addedTrace o rest := rfl
      rw [hdef, unloadCount_append, ih]
      rfl

theorem unloadCount_modifiedTrace (m : String) (o : Oracle) (e : List String)
    (l : List (String × ℚ)) : unloadCount m (modifiedTrace o e l) = 0 := by
  induction l with
  | nil => rfl
  | cons p rest ih =>
      have hdef : modifiedTrace o e (p :: rest) =
          (if p.1 ∈ e then
            [Ev.reloadCall p.1 (o.reloadOk p.1), Ev.syncCall o.syncOk]
          else [Ev.loadCall p.1 (o.loadOk p.1), Ev.syncCall o.syncOk]) ++
            modifiedTrace o e rest := rfl
      rw [hdef, unloadCount_append, ih]
      by_cases h : p.1 ∈ e <;> simp [h, unloadCount]

theorem unloadCount_removedTrace_of_not_mem (m : String) (o : Oracle)
    (e : List String) (L : List String) (hm : m ∉ L) :
    unloadCount m (removedTrace o e L) = 0 := by
  induction L with
  | nil => rfl
  | cons k rest ih =>
      have hk : m ≠ k := fun hh => hm (hh ▸ List.mem_cons_self k rest)
      have hrest : m ∉ rest := fun hh => hm (List.mem_cons_of_mem k hh)
      have hdef : removedTrace o e (k :: rest) =
          (if k ∈ e then
            [Ev.unloadCall k (o.unloadOk k), Ev.syncCall o.syncOk]
          else [Ev.syncCall o.syncOk]) ++ removedTrace o e rest := rfl
      rw [hdef, unloadCount_append, ih hrest]
      by_cases h : k ∈ e <;> simp [h, unloadCount, Ne.symm hk]

theorem unloadCount_removedTrace_of_mem (m : String) (o : Oracle)
    (e : List String) (L : List String) (hL : L.Nodup) (hm : m ∈ L) :
    unloadCount m (removedTrace o e L) = if m ∈ e then 1 else 0 := by
  induction L with
  | nil => simp at hm
  | cons k rest ih =>
      have hL1 : k ∉ rest := (List.nodup_cons.1 hL).1
      have hL2 : rest.Nodup := (List.nodup_cons.1 hL).2
      have hdef : removedTrace o e (k :: rest) =
          (if k ∈ e then
            [Ev.unloadCall k (o.unloadOk k), Ev.syncCall o.syncOk]
          else [Ev.syncCall o.syncOk]) ++ removedTrace o e rest := rfl
      rcases List.mem_cons.1 hm with h | h
      · subst h
        rw [hdef, unloadCount_append,
          unloadCount_removedTrace_of_not_mem m o e rest hL1]
        by_cases h : m ∈ e <;> simp [h, unloadCount]
      · have hk : m ≠ k := fun hh => hL1 (hh ▸ h)
        rw [hdef, unloadCount_append, ih hL2 h]
        by_cases hke : k ∈ e <;> simp [hke, unloadCount, Ne.symm hk]

theorem shapes_append (a b : List Ev) :
    shapes (a ++ b) = shapes a ++ shapes b := by
  simp [shapes]

theorem shapes_addedTrace_oracle (o₁ o₂ : Oracle) (l : List (String × ℚ)) :
    shapes (addedTrace o₁ l) = shapes (addedTrace o₂ l) := by
  induction l with
  | nil => rfl
  | cons p rest ih => simp [addedTrace, shapes, shapeOf] at ih ⊢; exact ih

theorem shapes_modifiedTrace_oracle (o₁ o₂ : Oracle) (e : List String)
    (l : List (String × ℚ)) :
    shapes (modifiedTrace o₁ e l) = shapes (modifiedTrace o₂ e l) := by
  induction l with
  | nil => rfl
  | cons p rest ih =>
      by_cases h : p.1 ∈ e <;>
        simp [modifiedTrace, h, shapes, shapeOf] at ih ⊢ <;> exact ih

theorem shapes_removedTrace_oracle (o₁ o₂ : Oracle) (e : List String)
    (L : List String) :
    shapes (removedTrace o₁ e L) = shapes (removedTrace o₂ e L) := by
  induction L with
  | nil => rfl
  | cons m rest ih =>
      by_cases h : m ∈ e <;>
        simp [removedTrace, h, shapes, shapeOf] at ih ⊢ <;> exact ih

theorem mem_of_lookupD {d : Dict} {m : String} {t : ℚ}
    (h : lookupD d m = some t) : (m, t) ∈ d := by
  induction d with
  | nil => simp [lookupD] at h
  | cons p rest ih =>
      obtain ⟨a, b⟩ := p
      by_cases ha : a = m
      · subst ha
        simp [lookupD] at h
        simp [h]
      · simp [lookupD, ha] at h
        simp [ih h]

theorem lookupD_append (d₁ d₂ : Dict) (m : String) :
    lookupD (d₁ ++ d₂) m = orElseO (lookupD d₁ m) (lookupD d₂ m) := by
  induction d₁ with
  | nil => simp [lookupD, orElseO]
  | cons p rest ih =>
      obtain ⟨a, b⟩ := p
      by_cases ha : a = m <;> simp [lookupD, ha, ih, orElseO]

theorem lookupD_setdefaultD_ne {k m : String} (h : k ≠ m) (d : Dict) (t : ℚ) :
    lookupD (setdefaultD d k t) m = lookupD d m := by
  unfold setdefaultD
  cases lookupD d k with
  | some v => rfl
  | none =>
      rw [lookupD_append]
      cases hm : lookupD d m <;> simp [orElseO, lookupD, h]

theorem lookupD_setdefaultD_self (k : String) (d : Dict) (t : ℚ) :
    lookupD (setdefaultD d k t) k = orElseO (lookupD d k) (some t) := by
  unfold setdefaultD
  cases hk : lookupD d k with
  | some v => simp [hk, orElseO]
  | none =>
      rw [lookupD_append, hk]
      simp [orElseO, lookupD]

theorem load_cogs_preserves (o : Oracle) (entries : List FileEntry)
    (st : BotState) (m : String)
    (h : ∀ g ∈ entries, isCogFile g.name = true → moduleOf g.name ≠ m) :
    lookupD (load_cogs o entries st).1.cogMtimes m = lookupD st.cogMtimes m := by
  induction entries generalizing st with
  | nil => rfl
  | cons g rest ih =>
      have hrest : ∀ g' ∈ rest, isCogFile g'.name = true → moduleOf g'.name ≠ m :=
        fun g' hg' => h g' (List.mem_cons_of_mem g hg')
      simp only [load_cogs, List.foldl_cons]
      by_cases hg : isCogFile g.name = true
      · have hne : moduleOf g.name ≠ m := h g (List.mem_cons_self g rest) hg
        by_cases hk : o.loadOk (moduleOf g.name) = true
        · have hstep : loadCogsStep o (st, []) g =
              (⟨insertD st.cogMtimes (moduleOf g.name) (g.mtimeResult.getD 0),
                insertExt st.extensions (moduleOf g.name)⟩,
               [Ev.loadCall (moduleOf g.name) true]) := by
            unfold loadCogsStep
            simp [hg, hk]
          rw [hstep]
          rw [foldl_ev_acc (loadCogsStep o) (fun s tr x => by
            unfold loadCogsStep
            by_cases h1 : isCogFile x.name = true <;>
              by_cases h2 : o.loadOk (moduleOf x.name) = true <;>
                simp [h1, h2]) rest _ _]
          rw [show List.foldl (loadCogsStep o) (_, ([] : List Ev)) rest =
            load_cogs o rest _ from rfl]
          rw [ih _ hrest]
          rw [lookupD_insertD]
          simp [hne]
        · have hstep : loadCogsStep o (st, []) g =
              (⟨setdefaultD st.cogMtimes (moduleOf g.name) (g.mtimeResult.getD 0),
                st.extensions⟩,
               [Ev.loadCall (moduleOf g.name) false]) := by
            unfold loadCogsStep
            simp [hg, hk]
          rw [hstep]
          rw [foldl_ev_acc (loadCogsStep o) (fun s tr x => by
            unfold loadCogsStep
            by_cases h1 : isCogFile x.name = true <;>
              by_cases h2 : o.loadOk (moduleOf x.name) = true <;>
                simp [h1, h2]) rest _ _]
          rw [show List.foldl (loadCogsStep o) (_, ([] : List Ev)) rest =
            load_cogs o rest _ from rfl]
          rw [ih _ hrest]
          exact lookupD_setdefaultD_ne hne _ _
      · have hstep : loadCogsStep o (st, []) g = (st, []) := by
          unfold loadCogsStep
          simp [hg]
        rw [hstep]
        exact ih st hrest

theorem nodup_modules_cons_pos {g : FileEntry} {rest : List FileEntry}
    (hg : isCogFile g.name = true)
    (hnd : (((g :: rest).filter (fun x => isCogFile x.name)).map
      (fun x => moduleOf x.name)).Nodup) :
    moduleOf g.name ∉
        (rest.filter (fun x => isCogFile x.name)).map (fun x => moduleOf x.name) ∧
      ((rest.filter (fun x => isCogFile x.name)).map
        (fun x => moduleOf x.name)).Nodup := by
  rw [List.filter_cons] at hnd
  simp only [hg, if_true] at hnd
  rw [List.map_cons] at hnd
  exact ⟨(List.nodup_cons.1 hnd).1, (List.nodup_cons.1 hnd).2⟩

theorem nodup_modules_cons_neg {g : FileEntry} {rest : List FileEntry}
    (hg : ¬ isCogFile g.name = true)
    (hnd : (((g :: rest).filter (fun x => isCogFile x.name)).map
      (fun x => moduleOf x.name)).Nodup) :
    ((rest.filter (fun x => isCogFile x.name)).map
      (fun x => moduleOf x.name)).Nodup := by
  rw [List.filter_cons] at hnd
  simp only [hg, if_false] at hnd
  exact hnd

theorem load_cogs_lookup_new (o : Oracle) (entries : List FileEntry)
    (st : BotState) (f : FileEntry)
    (hf : f ∈ entries) (hcog : isCogFile f.name = true)
    (hnd : ((entries.filter (fun g => isCogFile g.name)).map
      (fun g => moduleOf g.name)).Nodup)
    (hnew : lookupD st.cogMtimes (moduleOf f.name) = none) :
    lookupD (load_cogs o entries st).1.cogMtimes (moduleOf f.name) =
      some (f.mtimeResult.getD 0) := by
  induction entries generalizing st with
  | nil => simp at hf
  | cons g rest ih =>
      simp only [load_cogs, List.foldl_cons]
      have hacc : ∀ (s : BotState) (tr : List Ev) (x : FileEntry),
          loadCogsStep o (s, tr) x =
            ((loadCogsStep o (s, []) x).1, tr ++ (loadCogsStep o (s, []) x).2) := by
        intro s tr x
        unfold loadCogsStep
        by_cases h1 : isCogFile x.name = true <;>
          by_cases h2 : o.loadOk (moduleOf x.name) = true <;>
            simp [h1, h2]
      rcases List.mem_cons.1 hf with hfg | hfr
      · subst hfg
        have hndrest : ∀ g' ∈ rest, isCogFile g'.name = true →
            moduleOf g'.name ≠ moduleOf f.name := by
          intro g' hg' hcg' hh
          have h1 := (nodup_modules_cons_pos hcog hnd).1
          exact h1 (hh ▸ List.mem_map_of_mem (fun x => moduleOf x.name)
            (List.mem_filter.2 ⟨hg', hcg'⟩))
        by_cases hk : o.loadOk (moduleOf f.name) = true
        · have hstep : loadCogsStep o (st, []) f =
              (⟨insertD st.cogMtimes (moduleOf f.name) (f.mtimeResult.getD 0),
                insertExt st.extensions (moduleOf f.name)⟩,
               [Ev.loadCall (moduleOf f.name) true]) := by
            unfold loadCogsStep
            simp [hcog, hk]
          rw [hstep]
          rw [foldl_ev_acc (loadCogsStep o) hacc rest _ _]
          rw [show List.foldl (loadCogsStep o) (_, ([] : List Ev)) rest =
            load_cogs o rest _ from rfl]
          rw [load_cogs_preserves o rest _ _ hndrest]
          rw [lookupD_insertD]
          simp
        · have hstep : loadCogsStep o (st, []) f =
              (⟨setdefaultD st.cogMtimes (moduleOf f.name) (f.mtimeResult.getD 0),
                st.extensions⟩,
               [Ev.loadCall (moduleOf f.name) false]) := by
            unfold loadCogsStep
            simp [hcog, hk]
          rw [hstep]
          rw [foldl_ev_acc (loadCogsStep o) hacc rest _ _]
          rw [show List.foldl (loadCogsStep o) (_, ([] : List Ev)) rest =
            load_cogs o rest _ from rfl]
          rw [load_cogs_preserves o rest _ _ hndrest]
          rw [lookupD_setdefaultD_self, hnew]
          rfl
      · by_cases hg : isCogFile g.name = true
        · have hndrest : ((rest.filter (fun x => isCogFile x.name)).map
              (fun x => moduleOf x.name)).Nodup :=
            (nodup_modules_cons_pos hg hnd).2
          have hne : moduleOf g.name ≠ moduleOf f.name := by
            intro hh
            have h1 := (nodup_modules_cons_pos hg hnd).1
            exact h1 (hh.symm ▸ List.mem_map_of_mem (fun x => moduleOf x.name)
              (List.mem_filter.2 ⟨hfr, hcog⟩))
          by_cases hk : o.loadOk (moduleOf g.name) = true
          · have hstep : loadCogsStep o (st, []) g =
                (⟨insertD st.cogMtimes (moduleOf g.name) (g.mtimeResult.getD 0),
                  insertExt st.extensions (moduleOf g.name)⟩,
                 [Ev.loadCall (moduleOf g.name) true]) := by
              unfold loadCogsStep
              simp [hg, hk]
            rw [hstep]
            rw [foldl_ev_acc (loadCogsStep o) hacc rest _ _]
            rw [show List.foldl (loadCogsStep o) (_, ([] : List Ev)) rest =
              load_cogs o rest _ from rfl]
            apply ih _ hfr hndrest
            rw [lookupD_insertD]
            simp [hne, hnew]
          · have hstep : loadCogsStep o (st, []) g =
                (⟨setdefaultD st.cogMtimes (moduleOf g.name) (g.mtimeResult.getD 0),
                  st.extensions⟩,
                 [Ev.loadCall (moduleOf g.name) false]) := by
              unfold loadCogsStep
              simp [hg, hk]
            rw [hstep]
            rw [foldl_ev_acc (loadCogsStep o) hacc rest _ _]
            rw [show List.foldl (loadCogsStep o) (_, ([] : List Ev)) rest =
              load_cogs o rest _ from rfl]
            apply ih _ hfr hndrest
            rw [lookupD_setdefaultD_ne hne, hnew]
        · have hstep : loadCogsStep o (st, []) g = (st, []) := by
            unfold loadCogsStep
            simp [hg]
          rw [hstep]
          exact ih st hfr (nodup_modules_cons_neg hg hnd) hnew

theorem cycle_loaderCalls (o : Oracle) (scan : Scan) (st : BotState)
    (hS : (scan.map Prod.fst).Nodup)
    (hR : (st.cogMtimes.map Prod.fst).Nodup) :
    loaderCallsOf (cogWatcherCycle o scan st).2 =
      (scan.filter (fun p => (lookupD st.cogMtimes p.1).isNone)).map
          (fun p => (CallKind.loadK, p.1)) ++
        ((scan.filter (modifiedP st)).map
            (fun p => (if p.1 ∈ st.extensions then CallKind.reloadK
              else CallKind.loadK, p.1)) ++
          ((removedIds st scan).filter (fun m => decide (m ∈ st.extensions))).map
            (fun m => (CallKind.unloadK, m))) := by
  rw [cycle_trace o scan st hS hR]
  rw [loaderCallsOf_append, loaderCallsOf_append, loaderCallsOf_addedTrace,
    loaderCallsOf_modifiedTrace, loaderCallsOf_removedTrace]

/-- An external world in which every loader and sync call succeeds. -/
def oracleTrue : Oracle := ⟨fun _ => true, fun _ => true, fun _ => true, true⟩

/-- An external world in which every loader and sync call fails. -/
def oracleFail : Oracle := ⟨fun _ => false, fun _ => false, fun _ => false, false⟩

/-- A sample scan: `cogs.a` is new, `cogs.b` advanced to mtime 2,
`cogs.c` unchanged, and `cogs.d` has disappeared. -/
def scanW : Scan := [("cogs.a", 1), ("cogs.b", 2), ("cogs.c", 2)]

/-- The registry snapshot matching `scanW`'s previous cycle. -/
def stW : BotState :=
  ⟨[("cogs.b", 1), ("cogs.c", 2), ("cogs.d", 1)],
    ["cogs.b", "cogs.c", "cogs.d"]⟩

/-- C1: the claim that `tree.sync` is invoked exactly once per cycle fails
on the code. A cycle whose apply step touches two identifiers (two new cog
files) performs two sync calls — one per changed identifier, because the
`tree.sync` call sits inside each per-module loop body. -/
theorem c1_counterexample :
    (loaderIds (cogWatcherCycle oracleTrue
      [("cogs.a", 1), ("cogs.b", 1)] ⟨[], []⟩).2).length = 2 ∧
      syncCount (cogWatcherCycle oracleTrue
        [("cogs.a", 1), ("cogs.b", 1)] ⟨[], []⟩).2 = 2 ∧
      ¬ syncCount (cogWatcherCycle oracleTrue
        [("cogs.a", 1), ("cogs.b", 1)] ⟨[], []⟩).2 = 1 := by
  refine ⟨?_, ?_, ?_⟩ <;> decide

/-- C1 (amended): in every reconciliation cycle the command synchronizer
is invoked once per changed identifier — the number of `tree.sync` calls
equals the number of added, modified and removed identifiers of the
cycle. -/
theorem c1_sync_per_changed_identifier (o : Oracle) (scan : Scan)
    (st : BotState) (hS : (scan.map Prod.fst).Nodup)
    (hR : (st.cogMtimes.map Prod.fst).Nodup) :
    syncCount (cogWatcherCycle o scan st).2 =
      (addedIds st scan).length + (modifiedIds st scan).length +
        (removedIds st scan).length := by
  rw [cycle_trace o scan st hS hR]
  rw [syncCount_append, syncCount_append, syncCount_addedTrace,
    syncCount_modifiedTrace, syncCount_removedTrace]
  simp [addedIds, modifiedIds]
  omega

/-- C1 (amended) witness at a concrete one-module scan. -/
theorem c1_witness :
    syncCount (cogWatcherCycle oracleTrue [("cogs.a", 1)]
      ⟨[], []⟩).2 =
      (addedIds ⟨[], []⟩ [("cogs.a", 1)]).length +
        (modifiedIds ⟨[], []⟩ [("cogs.a", 1)]).length +
        (removedIds ⟨[], []⟩ [("cogs.a", 1)]).length :=
  c1_sync_per_changed_identifier oracleTrue [("cogs.a", 1)] ⟨[], []⟩
    (by decide) (by decide)

/-- C2: the claim that a missing cogs directory yields an empty scan while
the watcher keeps running fails on the code: `_cog_watcher` returns before
entering its loop when the directory does not exist, so no cycle ever
runs and a reappearing directory is never picked up. -/
theorem c2_counterexample :
    watcherStart false oracleTrue [⟨"hello.py", some 1⟩] ⟨[], []⟩ =
        WatcherStart.terminated ∧
      watcherStart false oracleTrue [⟨"hello.py", some 1⟩] ⟨[], []⟩ ≠
        WatcherStart.looping (cogWatcherCycle oracleTrue
          (buildScan [⟨"hello.py", some 1⟩]) ⟨[], []⟩) := by
  refine ⟨rfl, ?_⟩
  intro h
  exact WatcherStart.noConfusion h

/-- C2 (amended): if the watched cogs directory does not exist when the
watcher starts, the watcher terminates immediately without scanning; when
it does exist, the loop is entered and the first cycle runs on the
scanned directory. -/
theorem c2_missing_dir_terminates (o : Oracle) (entries : List FileEntry)
    (st : BotState) :
    watcherStart false o entries st = WatcherStart.terminated ∧
      watcherStart true o entries st =
        WatcherStart.looping (cogWatcherCycle o (buildScan entries) st) :=
  ⟨rfl, rfl⟩

theorem no_loader_call_of_unchanged (o : Oracle) (scan : Scan)
    (st : BotState) (m : String) (t : ℚ)
    (hS : (scan.map Prod.fst).Nodup)
    (hR : (st.cogMtimes.map Prod.fst).Nodup)
    (hscan : lookupD scan m = some t)
    (h : lookupD st.cogMtimes m = some t) :
    m ∉ loaderIds (cogWatcherCycle o scan st).2 := by
  intro hmem
  unfold loaderIds at hmem
  rw [cycle_loaderCalls o scan st hS hR] at hmem
  simp only [List.map_append, List.map_map, List.mem_append,
    List.mem_map, Function.comp] at hmem
  rcases hmem with ⟨p, hp, hpm⟩ | ⟨p, hp, hpm⟩ | ⟨k, hk, hkm⟩
  · rcases List.mem_filter.1 hp with ⟨_, hcond⟩
    rw [hpm, h] at hcond
    simp at hcond
  · rcases List.mem_filter.1 hp with ⟨hmem2, hcond⟩
    rcases modifiedP_of_lookup hcond with ⟨prev, hprev, hlt⟩
    rw [hpm, h] at hprev
    have hpt : prev = t := (Option.some.inj hprev).symm
    have hsc := lookupD_of_mem_nodup hS hmem2
    rw [hpm, hscan] at hsc
    have hp2 : t = p.2 := Option.some.inj hsc
    rw [hpt, ← hp2] at hlt
    exact absurd hlt (lt_irrefl t)
  · rcases List.mem_filter.1 hk with ⟨hrem, _⟩
    rw [hkm] at hrem
    have h2 := (mem_removedIds.1 hrem).2
    rw [hscan] at h2
    simp at h2

/-- C4: the registry timestamp is brought to the scanned value for every
added or strictly-newer identifier regardless of loader outcomes
(including failures), and an identifier whose recorded timestamp equals
the scanned timestamp receives no loader call in the cycle — a failed
load at timestamp T is not retried while the scan still reports T. -/
theorem c4_retry_suppression (o : Oracle) (scan : Scan) (st : BotState)
    (m : String) (t : ℚ)
    (hS : (scan.map Prod.fst).Nodup)
    (hR : (st.cogMtimes.map Prod.fst).Nodup)
    (hscan : lookupD scan m = some t) :
    ((lookupD st.cogMtimes m = none ∨
        (∃ p, lookupD st.cogMtimes m = some p ∧ p < t)) →
      lookupD (cogWatcherCycle o scan st).1.cogMtimes m = some t) ∧
      (lookupD st.cogMtimes m = some t →
        m ∉ loaderIds (cogWatcherCycle o scan st).2) := by
  constructor
  · intro h
    rw [cycle_lookup o scan st m hS hR, hscan]
    rcases h with h | ⟨p, hp, hlt⟩
    · rw [h]
      rfl
    · rw [hp]
      simp [cycleTs, hlt]
  · intro h
    exact no_loader_call_of_unchanged o scan st m t hS hR hscan h

/-- C4 witness: with every loader call failing, a strictly newer mtime is
still recorded, and an identifier whose timestamp is unchanged gets no
loader call. -/
theorem c4_witness :
    lookupD (cogWatcherCycle oracleFail [("cogs.a", 2), ("cogs.b", 1)]
        ⟨[("cogs.a", 1), ("cogs.b", 1)], []⟩).1.cogMtimes "cogs.a" = some 2 ∧
      "cogs.b" ∉ loaderIds (cogWatcherCycle oracleFail
        [("cogs.a", 2), ("cogs.b", 1)]
        ⟨[("cogs.a", 1), ("cogs.b", 1)], []⟩).2 := by
  constructor
  · exact (c4_retry_suppression oracleFail _ _ "cogs.a" 2 (by decide)
      (by decide) (by decide)).1 (Or.inr ⟨1, by decide, by decide⟩)
  · exact (c4_retry_suppression oracleFail _ _ "cogs.b" 1 (by decide)
      (by decide) (by decide)).2 (by decide)

/-- C5: the cycle classifies exactly — the load/reload calls target, in
order, the identifiers in the scan but not the registry (added) followed
by the identifiers present in both with a strictly greater scanned
timestamp (modified); a record survives the cycle exactly when its
identifier is in the scan (registry-minus-scan identifiers are removed);
and an identifier whose scanned timestamp equals its recorded one keeps
its record unchanged and receives no loader call. -/
theorem c5_diff_classification (o : Oracle) (scan : Scan) (st : BotState)
    (hS : (scan.map Prod.fst).Nodup)
    (hR : (st.cogMtimes.map Prod.fst).Nodup) :
    ((loaderCallsOf (cogWatcherCycle o scan st).2).filter
        (fun c => decide (c.1 ≠ CallKind.unloadK))).map Prod.snd =
      addedIds st scan ++ modifiedIds st scan ∧
    (∀ m, lookupD (cogWatcherCycle o scan st).1.cogMtimes m = none ↔
      lookupD scan m = none) ∧
    (∀ m t, lookupD scan m = some t → lookupD st.cogMtimes m = some t →
      lookupD (cogWatcherCycle o scan st).1.cogMtimes m = some t ∧
      m ∉ loaderIds (cogWatcherCycle o scan st).2) := by
  refine ⟨?_, ?_, ?_⟩
  · rw [cycle_loaderCalls o scan st hS hR, List.filter_append,
      List.filter_append]
    have hA : ((scan.filter (fun p => (lookupD st.cogMtimes p.1).isNone)).map
        (fun p => (CallKind.loadK, p.1))).filter
          (fun c => decide (c.1 ≠ CallKind.unloadK)) =
        (scan.filter (fun p => (lookupD st.cogMtimes p.1).isNone)).map
          (fun p => (CallKind.loadK, p.1)) := by
      rw [List.filter_eq_self]
      intro c hc
      rcases List.mem_map.1 hc with ⟨p, _, hp⟩
      rw [← hp]
      simp
    have hB : ((scan.filter (modifiedP st)).map
        (fun p => (if p.1 ∈ st.extensions then CallKind.reloadK
          else CallKind.loadK, p.1))).filter
          (fun c => decide (c.1 ≠ CallKind.unloadK)) =
        (scan.filter (modifiedP st)).map
          (fun p => (if p.1 ∈ st.extensions then CallKind.reloadK
            else CallKind.loadK, p.1)) := by
      rw [List.filter_eq_self]
      intro c hc
      rcases List.mem_map.1 hc with ⟨p, _, hp⟩
      rw [← hp]
      by_cases hx : p.1 ∈ st.extensions <;> simp [hx]
    have hC : (((removedIds st scan).filter
        (fun m => decide (m ∈ st.extensions))).map
          (fun m => (CallKind.unloadK, m))).filter
          (fun c => decide (c.1 ≠ CallKind.unloadK)) = [] := by
      rw [List.filter_eq_nil_iff]
      intro c hc
      rcases List.mem_map.1 hc with ⟨k, _, hk⟩
      rw [← hk]
      simp
    rw [hA, hB, hC, List.append_nil, List.map_append, List.map_map,
      List.map_map]
    rfl
  · intro m
    rw [cycle_lookup o scan st m hS hR]
    cases hsc : lookupD scan m with
    | none => cases lookupD st.cogMtimes m <;> simp [cycleTs]
    | some t => cases lookupD st.cogMtimes m <;> simp [cycleTs]
  · intro m t h1 h2
    constructor
    · rw [cycle_lookup o scan st m hS hR, h1, h2]
      simp [cycleTs]
    · exact no_loader_call_of_unchanged o scan st m t hS hR h1 h2

/-- C5 witness at the sample scan and registry: the unchanged identifier
`cogs.c` keeps its record and receives no loader call. -/
theorem c5_witness :
    lookupD (cogWatcherCycle oracleTrue scanW stW).1.cogMtimes "cogs.c" =
        some 2 ∧
      "cogs.c" ∉ loaderIds (cogWatcherCycle oracleTrue scanW stW).2 :=
  (c5_diff_classification oracleTrue scanW stW (by decide) (by decide)).2.2
    "cogs.c" 2 (by decide) (by decide)

/-- C6: every identifier classified as removed gets exactly one unload
call if it is currently loaded and none otherwise, and its registry
record is gone at the end of the cycle regardless of the unload call's
outcome (the oracle is universally quantified, so this holds for failing
unloads too). -/
theorem c6_removal_cleanup (o : Oracle) (scan : Scan) (st : BotState)
    (m : String)
    (hS : (scan.map Prod.fst).Nodup)
    (hR : (st.cogMtimes.map Prod.fst).Nodup)
    (hm : m ∈ removedIds st scan) :
    unloadCount m (cogWatcherCycle o scan st).2 =
        (if m ∈ st.extensions then 1 else 0) ∧
      lookupD (cogWatcherCycle o scan st).1.cogMtimes m = none := by
  constructor
  · rw [cycle_trace o scan st hS hR]
    rw [unloadCount_append, unloadCount_append, unloadCount_addedTrace,
      unloadCount_modifiedTrace,
      unloadCount_removedTrace_of_mem m o st.extensions (removedIds st scan)
        (List.Nodup.filter _ hR) hm]
    simp
  · rw [cycle_lookup o scan st m hS hR]
    have h2 := (mem_removedIds.1 hm).2
    cases hsc : lookupD scan m with
    | none => rfl
    | some t =>
        rw [hsc] at h2
        simp at h2

/-- C6 witness: with a failing unload call, the removed loaded module
`cogs.a` still gets exactly one unload call and its record is deleted. -/
theorem c6_witness :
    unloadCount "cogs.a" (cogWatcherCycle oracleFail []
        ⟨[("cogs.a", 1)], ["cogs.a"]⟩).2 = 1 ∧
      lookupD (cogWatcherCycle oracleFail []
        ⟨[("cogs.a", 1)], ["cogs.a"]⟩).1.cogMtimes "cogs.a" = none := by
  have h := c6_removal_cleanup oracleFail [] ⟨[("cogs.a", 1)], ["cogs.a"]⟩
    "cogs.a" (by decide) (by decide) (by decide)
  refine ⟨?_, h.2⟩
  rw [h.1]
  decide

/-- C7: failure isolation — the sequence of calls a cycle makes (loader
calls with their targets and sync calls, outcomes forgotten) is the same
under any two outcome oracles, so one identifier's load, reload or unload
failure never prevents the calls for any other identifier; and the
registry contents after the cycle are likewise independent of the
outcomes, so no error escapes the cycle into the registry. -/
theorem c7_failure_isolation (o₁ o₂ : Oracle) (scan : Scan) (st : BotState)
    (hS : (scan.map Prod.fst).Nodup)
    (hR : (st.cogMtimes.map Prod.fst).Nodup) :
    shapes (cogWatcherCycle o₁ scan st).2 =
        shapes (cogWatcherCycle o₂ scan st).2 ∧
      ∀ m, lookupD (cogWatcherCycle o₁ scan st).1.cogMtimes m =
        lookupD (cogWatcherCycle o₂ scan st).1.cogMtimes m := by
  constructor
  · rw [cycle_trace o₁ scan st hS hR, cycle_trace o₂ scan st hS hR]
    rw [shapes_append, shapes_append, shapes_append, shapes_append]
    rw [shapes_addedTrace_oracle o₁ o₂, shapes_modifiedTrace_oracle o₁ o₂,
      shapes_removedTrace_oracle o₁ o₂]
  · intro m
    rw [cycle_lookup o₁ scan st m hS hR, cycle_lookup o₂ scan st m hS hR]

/-- C7 witness: all-failing versus all-succeeding external calls give the
same call sequence and the same registry on the sample cycle. -/
theorem c7_witness :
    shapes (cogWatcherCycle oracleTrue scanW stW).2 =
        shapes (cogWatcherCycle oracleFail scanW stW).2 ∧
      lookupD (cogWatcherCycle oracleTrue scanW stW).1.cogMtimes "cogs.b" =
        lookupD (cogWatcherCycle oracleFail scanW stW).1.cogMtimes "cogs.b" := by
  have h := c7_failure_isolation oracleTrue oracleFail scanW stW
    (by decide) (by decide)
  exact ⟨h.1, h.2 "cogs.b"⟩

/-- C8: idempotence — after applying one cycle for a scan, diffing the
resulting registry against the same scan classifies nothing as added,
modified or removed, so a second cycle over an unchanged directory makes
no loader call and mutates no record. -/
theorem c8_idempotence (o : Oracle) (scan : Scan) (st : BotState)
    (hS : (scan.map Prod.fst).Nodup)
    (hR : (st.cogMtimes.map Prod.fst).Nodup) :
    addedIds (cogWatcherCycle o scan st).1 scan = [] ∧
      modifiedIds (cogWatcherCycle o scan st).1 scan = [] ∧
      removedIds (cogWatcherCycle o scan st).1 scan = [] := by
  refine ⟨?_, ?_, ?_⟩
  · unfold addedIds
    have hfil : scan.filter (fun p =>
        (lookupD (cogWatcherCycle o scan st).1.cogMtimes p.1).isNone) = [] := by
      rw [List.filter_eq_nil_iff]
      intro p hp
      rw [cycle_lookup o scan st p.1 hS hR, lookupD_of_mem_nodup hS hp]
      cases lookupD st.cogMtimes p.1 <;> simp [cycleTs]
    rw [hfil]
    rfl
  · unfold modifiedIds
    have hfil : scan.filter (modifiedP (cogWatcherCycle o scan st).1) = [] := by
      rw [List.filter_eq_nil_iff]
      intro p hp
      unfold modifiedP
      rw [cycle_lookup o scan st p.1 hS hR, lookupD_of_mem_nodup hS hp]
      cases hv : lookupD st.cogMtimes p.1 with
      | none => simp [cycleTs]
      | some v =>
          simp only [cycleTs]
          by_cases hvt : v < p.2 <;> simp [hvt]
    rw [hfil]
    rfl
  · unfold removedIds
    rw [List.filter_eq_nil_iff]
    intro m hm
    have h1 : (lookupD (cogWatcherCycle o scan st).1.cogMtimes m).isSome :=
      lookupD_isSome_of_mem_keys hm
    rw [cycle_lookup o scan st m hS hR] at h1
    cases hsc : lookupD scan m with
    | none =>
        rw [hsc] at h1
        cases lookupD st.cogMtimes m <;> simp [cycleTs] at h1
    | some t => simp [hsc]

/-- C8 witness at the sample scan and registry. -/
theorem c8_witness :
    addedIds (cogWatcherCycle oracleTrue scanW stW).1 scanW = [] ∧
      modifiedIds (cogWatcherCycle oracleTrue scanW stW).1 scanW = [] ∧
      removedIds (cogWatcherCycle oracleTrue scanW stW).1 scanW = [] :=
  c8_idempotence oracleTrue scanW stW (by decide) (by decide)

/-- C9: within one cycle the loader calls happen in category order — all
loads for added identifiers first, then the reload-or-load calls for
modified identifiers, then the unload calls for removed identifiers that
are currently loaded. -/
theorem c9_processing_order (o : Oracle) (scan : Scan) (st : BotState)
    (hS : (scan.map Prod.fst).Nodup)
    (hR : (st.cogMtimes.map Prod.fst).Nodup) :
    loaderCallsOf (cogWatcherCycle o scan st).2 =
      (addedIds st scan).map (fun m => (CallKind.loadK, m)) ++
        ((scan.filter (modifiedP st)).map
            (fun p => (if p.1 ∈ st.extensions then CallKind.reloadK
              else CallKind.loadK, p.1)) ++
          ((removedIds st scan).filter
            (fun m => decide (m ∈ st.extensions))).map
              (fun m => (CallKind.unloadK, m))) := by
  rw [cycle_loaderCalls o scan st hS hR]
  unfold addedIds
  rw [List.map_map]
  rfl

/-- C9 witness: on the sample cycle the call list is the added load, then
the modified reload, then the removed unload, in that order. -/
theorem c9_witness :
    loaderCallsOf (cogWatcherCycle oracleTrue scanW stW).2 =
      [(CallKind.loadK, "cogs.a"), (CallKind.reloadK, "cogs.b"),
        (CallKind.unloadK, "cogs.d")] := by
  rw [c9_processing_order oracleTrue scanW stW (by decide) (by decide)]
  decide

/-- C10: a candidate module file whose mtime cannot be read is recorded
with timestamp 0 by the scanner and by the initial loader (even when its
load fails), the identifier stays tracked, and a later scan reporting a
positive timestamp classifies it as modified. -/
theorem c10_mtime_failure (o : Oracle) (f : FileEntry)
    (entries : List FileEntry) (st : BotState) (scan : Scan) (t : ℚ)
    (hf : f ∈ entries) (hcog : isCogFile f.name = true)
    (hmt : f.mtimeResult = none)
    (hnd : ((entries.filter (fun g => isCogFile g.name)).map
      (fun g => moduleOf g.name)).Nodup)
    (hnew : lookupD st.cogMtimes (moduleOf f.name) = none)
    (hscan : lookupD scan (moduleOf f.name) = some t) (ht : 0 < t) :
    (moduleOf f.name, 0) ∈ buildScan entries ∧
      lookupD (load_cogs o entries st).1.cogMtimes (moduleOf f.name) =
        some 0 ∧
      moduleOf f.name ∈ modifiedIds (load_cogs o entries st).1 scan := by
  have hrec : lookupD (load_cogs o entries st).1.cogMtimes (moduleOf f.name) =
      some 0 := by
    rw [load_cogs_lookup_new o entries st f hf hcog hnd hnew, hmt]
    rfl
  refine ⟨?_, hrec, ?_⟩
  · unfold buildScan
    apply List.mem_filterMap.2
    refine ⟨f, hf, ?_⟩
    unfold scanEntry
    rw [hmt]
    simp [hcog]
  · unfold modifiedIds
    apply List.mem_map.2
    refine ⟨(moduleOf f.name, t), ?_, rfl⟩
    apply List.mem_filter.2
    refine ⟨mem_of_lookupD hscan, ?_⟩
    unfold modifiedP
    rw [hrec]
    simp [ht]

/-- C10 witness: `hello.py` with an unreadable mtime, a failing initial
load, and a later scan at timestamp 3. -/
theorem c10_witness :
    (moduleOf "hello.py", (0 : ℚ)) ∈ buildScan [⟨"hello.py", none⟩] ∧
      lookupD (load_cogs oracleFail [⟨"hello.py", none⟩]
        ⟨[], []⟩).1.cogMtimes (moduleOf "hello.py") = some 0 ∧
      moduleOf "hello.py" ∈ modifiedIds (load_cogs oracleFail
        [⟨"hello.py", none⟩] ⟨[], []⟩).1 [("cogs.hello", 3)] :=
  c10_mtime_failure oracleFail ⟨"hello.py", none⟩ [⟨"hello.py", none⟩]
    ⟨[], []⟩ [("cogs.hello", 3)] 3 (by decide) (by decide) (by decide)
    (by decide) (by decide) (by decide) (by decide)

end Tuffy
